import Mathlib

/-!
Shallow embedding of `src/validation_utils.py`.

Python strings are modelled as `List Char`; Python numbers (`int | float`)
as elements of a linear order, instantiated at `Int` in concrete
statements.  Each definition is translated directly from the source
function of the same name.
-/

/-- Embedding of `clamp(value, min_value, max_value)`:
`return max(min_value, min(value, max_value))`. -/
def clamp {α : Type} [LinearOrder α] (value min_value max_value : α) : α :=
  max min_value (min value max_value)

/-- The regex character class `[A-Z]` used in `is_valid_password`. -/
def isUpperAZ (c : Char) : Bool :=
  'A' ≤ c && c ≤ 'Z'

/-- Maximal runs of consecutive codepoints of Unicode general category Nd
(decimal digits), Unicode 14.0: 62 runs covering 660 codepoints. -/
def ndDigitRanges : List (Nat × Nat) :=
  [(0x30, 0x39), (0x660, 0x669), (0x6F0, 0x6F9), (0x7C0, 0x7C9),
   (0x966, 0x96F), (0x9E6, 0x9EF), (0xA66, 0xA6F), (0xAE6, 0xAEF),
   (0xB66, 0xB6F), (0xBE6, 0xBEF), (0xC66, 0xC6F), (0xCE6, 0xCEF),
   (0xD66, 0xD6F), (0xDE6, 0xDEF), (0xE50, 0xE59), (0xED0, 0xED9),
   (0xF20, 0xF29), (0x1040, 0x1049), (0x1090, 0x1099), (0x17E0, 0x17E9),
   (0x1810, 0x1819), (0x1946, 0x194F), (0x19D0, 0x19D9), (0x1A80, 0x1A89),
   (0x1A90, 0x1A99), (0x1B50, 0x1B59), (0x1BB0, 0x1BB9), (0x1C40, 0x1C49),
   (0x1C50, 0x1C59), (0xA620, 0xA629), (0xA8D0, 0xA8D9), (0xA900, 0xA909),
   (0xA9D0, 0xA9D9), (0xA9F0, 0xA9F9), (0xAA50, 0xAA59), (0xABF0, 0xABF9),
   (0xFF10, 0xFF19), (0x104A0, 0x104A9), (0x10D30, 0x10D39), (0x11066, 0x1106F),
   (0x110F0, 0x110F9), (0x11136, 0x1113F), (0x111D0, 0x111D9), (0x112F0, 0x112F9),
   (0x11450, 0x11459), (0x114D0, 0x114D9), (0x11650, 0x11659), (0x116C0, 0x116C9),
   (0x11730, 0x11739), (0x118E0, 0x118E9), (0x11950, 0x11959), (0x11C50, 0x11C59),
   (0x11D50, 0x11D59), (0x11DA0, 0x11DA9), (0x16A60, 0x16A69), (0x16AC0, 0x16AC9),
   (0x16B50, 0x16B59), (0x1D7CE, 0x1D7FF), (0x1E140, 0x1E149), (0x1E2F0, 0x1E2F9),
   (0x1E950, 0x1E959), (0x1FBF0, 0x1FBF9)]

/-- The regex character class `\d` used in `is_valid_password`: on a `str`
pattern without `re.ASCII`, Python's `\d` matches every Unicode decimal
digit (general category Nd), not just `0`-`9`. -/
def isDigitNd (c : Char) : Bool :=
  ndDigitRanges.any (fun r => r.1 ≤ c.toNat && c.toNat ≤ r.2)

/-- Embedding of `is_valid_password(password, min_length, require_number,
require_uppercase)`.  `re.search(r'[A-Z]', p)` (resp. `re.search(r'\d', p)`)
succeeds iff some character of `p` lies in the class, hence `List.any`. -/
def is_valid_password (password : List Char) (min_length : Nat)
    (require_number : Bool) (require_uppercase : Bool) : Bool :=
  if password.length < min_length then false
  else if require_uppercase && !(password.any isUpperAZ) then false
  else if require_number && !(password.any isDigitNd) then false
  else true

/-- The regex character class `[0-9a-fA-F]` used in `is_valid_hex_color`. -/
def isHexDigitChar (c : Char) : Bool :=
  ('0' ≤ c && c ≤ '9') || ('a' ≤ c && c ≤ 'f') || ('A' ≤ c && c ≤ 'F')

/-- One repetition block `[0-9a-fA-F]{n}` of the hex-color regex: consume
exactly `n` hex digits from the front of the list, returning the remaining
suffix, or `none` when fewer than `n` hex digits are available. -/
def takeHex : Nat → List Char → Option (List Char)
  | 0, rest => some rest
  | _ + 1, [] => none
  | n + 1, c :: rest => if isHexDigitChar c then takeHex n rest else none

/-- Python's `$` anchor without `re.MULTILINE`: it matches at the end of
the string, or just before a single newline that ends the string. -/
def dollarEnd (rest : List Char) : Bool :=
  match rest with
  | [] => true
  | [c] => c == '\n'
  | _ => false

/-- The suffix `(?:[0-9a-fA-F]{3}){n}$` of the hex-color regex applied to
the text after `#`: `n` repetitions of three hex digits followed by a
position where `$` matches. -/
def hexRepMatch (n : Nat) (l : List Char) : Bool :=
  match takeHex (3 * n) l with
  | some r => dollarEnd r
  | none => false

/-- Embedding of `is_valid_hex_color(color)`:
`bool(re.match(r'^#(?:[0-9a-fA-F]{3}){1,2}$', color))`.  `re.match`
anchors the match at position 0 (so the first character must be `#`), and
the counted repetition `{1,2}` with backtracking succeeds iff either two
repetitions (6 hex digits) or one repetition (3 hex digits) can be
followed by a position where `$` matches. -/
def is_valid_hex_color (color : List Char) : Bool :=
  match color with
  | [] => false
  | c :: rest => c == '#' && (hexRepMatch 2 rest || hexRepMatch 1 rest)

/-- Embedding of `is_in_range(value, min_val, max_val, inclusive)`. -/
def is_in_range {α : Type} [LinearOrder α] (value min_val max_val : α)
    (inclusive : Bool) : Bool :=
  if inclusive then decide (min_val ≤ value) && decide (value ≤ max_val)
  else decide (min_val < value) && decide (value < max_val)

/-- Embedding of `validate_length(text, min_length, max_length)`; the
optional `max_length` (Python `None`) is an `Option Int`. -/
def validate_length (text : List Char) (min_length : Int)
    (max_length : Option Int) : Bool :=
  if (text.length : Int) < min_length then false
  else
    match max_length with
    | some m => if (text.length : Int) > m then false else true
    | none => true

/-- Embedding of `contains_only_allowed_chars(text, allowed_chars)`:
`all(char in allowed_chars for char in text)`. -/
def contains_only_allowed_chars (text allowed_chars : List Char) : Bool :=
  text.all (fun c => allowed_chars.contains c)

/-- Spec-side reading of the hex-color check (claim C1 as stated): the
string is exactly `#` followed by 3 or 6 hexadecimal digits, with no other
characters before or after. -/
def spec_hex_color (s : List Char) : Bool :=
  match s with
  | [] => false
  | c :: body =>
      c == '#' && (body.length == 3 || body.length == 6) &&
        body.all isHexDigitChar

/-- Amended spec for the hex-color check: the string is exactly `#`
followed by 3 or 6 hex digits, or exactly that followed by one trailing
newline character. -/
def spec_hex_color_nl (s : List Char) : Bool :=
  spec_hex_color s ||
    (s.getLast? == some '\n' && spec_hex_color s.dropLast)

/-- C2: for `lo ≤ hi`, `clamp(v, lo, hi)` lies in `[lo, hi]`, and the
bounds themselves are fixed points: `clamp(lo, lo, hi) = lo` and
`clamp(hi, lo, hi) = hi`. -/
theorem clamp_within {α : Type} [LinearOrder α] (v lo hi : α) (h : lo ≤ hi) :
    lo ≤ clamp v lo hi ∧ clamp v lo hi ≤ hi ∧
      clamp lo lo hi = lo ∧ clamp hi lo hi = hi := by
  unfold clamp
  refine ⟨le_max_left _ _, max_le h (min_le_right _ _), ?_, ?_⟩
  · rw [min_eq_left h, max_self]
  · rw [min_self, max_eq_right h]

/-- Witness for C2 at `v = 3`, `lo = 0`, `hi = 5` over `Int`. -/
theorem clamp_within_witness :
    (0 : Int) ≤ 5 ∧
      ((0 : Int) ≤ clamp 3 0 5 ∧ clamp (3 : Int) 0 5 ≤ 5 ∧
        clamp (0 : Int) 0 5 = 0 ∧ clamp (5 : Int) 0 5 = 5) :=
  ⟨by decide, clamp_within 3 0 5 (by decide)⟩

/-- C9: when the bounds are swapped (`hi < lo`), `clamp(v, lo, hi)`
returns the lower-bound argument `lo`, independent of `v`. -/
theorem clamp_swapped_bounds {α : Type} [LinearOrder α] (v lo hi : α)
    (h : hi < lo) : clamp v lo hi = lo := by
  unfold clamp
  exact max_eq_left ((min_le_right v hi).trans h.le)

/-- Witness for C9 at `v = 100`, `lo = 7`, `hi = 2` over `Int`. -/
theorem clamp_swapped_bounds_witness :
    (2 : Int) < 7 ∧ clamp (100 : Int) 7 2 = 7 :=
  ⟨by decide, clamp_swapped_bounds 100 7 2 (by decide)⟩

/-- C10: `clamp` is idempotent for all `v`, `lo`, `hi`, with no ordering
precondition on the bounds. -/
theorem clamp_idempotent {α : Type} [LinearOrder α] (v lo hi : α) :
    clamp (clamp v lo hi) lo hi = clamp v lo hi := by
  unfold clamp
  rcases le_total lo hi with h | h
  · have h1 : max lo (min v hi) ≤ hi := max_le h (min_le_right _ _)
    rw [min_eq_left h1, ← max_assoc, max_self]
  · have h1 : min v hi ≤ lo := (min_le_right v hi).trans h
    rw [max_eq_left h1, min_eq_right h, max_eq_left h]

/-- C3: `is_in_range(v, lo, hi, true)` is true iff `lo ≤ v ≤ hi`;
`is_in_range(v, lo, hi, false)` is true iff `lo < v < hi`; and with
`inclusive = false` the boundary values `v = lo` and `v = hi` give
false. -/
theorem is_in_range_spec {α : Type} [LinearOrder α] (v lo hi : α) :
    (is_in_range v lo hi true = true ↔ lo ≤ v ∧ v ≤ hi) ∧
      (is_in_range v lo hi false = true ↔ lo < v ∧ v < hi) ∧
      is_in_range lo lo hi false = false ∧
      is_in_range hi lo hi false = false := by
  refine ⟨by simp [is_in_range], by simp [is_in_range], ?_, ?_⟩
  · simp [is_in_range]
  · simp [is_in_range]

/-- C4: `is_valid_password` returns true iff the length is at least
`min_length`, an uppercase letter is present whenever required, and a
decimal digit is present whenever required; together with the spec's four
concrete examples under the default parameters. -/
theorem is_valid_password_spec :
    (∀ (pw : List Char) (ml : Nat) (rn ru : Bool),
        is_valid_password pw ml rn ru = true ↔
          ml ≤ pw.length ∧
            (ru = false ∨ pw.any isUpperAZ = true) ∧
            (rn = false ∨ pw.any isDigitNd = true)) ∧
      is_valid_password ['A','b','c','d','e','f','g','1'] 8 true true = true ∧
      is_valid_password ['a','b','c','d','e','f','g','1'] 8 true true = false ∧
      is_valid_password ['A','b','c','d','e','f','g','h'] 8 true true = false ∧
      is_valid_password ['A','b','1'] 8 true true = false := by
  refine ⟨fun pw ml rn ru => ?_, by decide, by decide, by decide, by decide⟩
  unfold is_valid_password
  split_ifs with h1 h2 h3
  · simp only [Bool.false_eq_true, false_iff]
    rintro ⟨hle, -, -⟩; omega
  · simp only [Bool.and_eq_true, Bool.not_eq_true'] at h2
    simp only [Bool.false_eq_true, false_iff]
    rintro ⟨-, hup, -⟩
    rcases hup with h | h
    · rw [h2.1] at h; exact Bool.noConfusion h
    · rw [h2.2] at h; exact Bool.noConfusion h
  · simp only [Bool.and_eq_true, Bool.not_eq_true'] at h3
    simp only [Bool.false_eq_true, false_iff]
    rintro ⟨-, -, hd⟩
    rcases hd with h | h
    · rw [h3.1] at h; exact Bool.noConfusion h
    · rw [h3.2] at h; exact Bool.noConfusion h
  · simp only [true_iff]
    refine ⟨by omega, ?_, ?_⟩
    · rcases Bool.eq_false_or_eq_true ru with hr | hr
      swap
      · exact Or.inl hr
      · right
        by_contra hup
        rw [Bool.not_eq_true] at hup
        exact h2 (by simp [hr, hup])
    · rcases Bool.eq_false_or_eq_true rn with hr | hr
      swap
      · exact Or.inl hr
      · right
        by_contra hd
        rw [Bool.not_eq_true] at hd
        exact h3 (by simp [hr, hd])

/-- C5: `validate_length` returns true iff the length is at least
`min_length` and, when `max_length` is present, at most `max_length`;
together with the spec's four concrete examples. -/
theorem validate_length_spec :
    (∀ (t : List Char) (mn : Int) (mx : Option Int),
        validate_length t mn mx = true ↔
          mn ≤ (t.length : Int) ∧
            (mx = none ∨ ∃ m, mx = some m ∧ (t.length : Int) ≤ m)) ∧
      validate_length ['h','e','l','l','o'] 1 (some 10) = true ∧
      validate_length ['h','e','l','l','o'] 6 (some 10) = false ∧
      validate_length ['h','e','l','l','o'] 0 (some 4) = false ∧
      validate_length ['h','e','l','l','o'] 0 none = true := by
  refine ⟨fun t mn mx => ?_, by decide, by decide, by decide, by decide⟩
  unfold validate_length
  cases mx with
  | none => split_ifs <;> simp <;> omega
  | some m => split_ifs <;> simp <;> omega

/-- C6: `contains_only_allowed_chars(text, allowed)` is true iff every
character of `text` occurs in `allowed`; in particular it is true for the
empty text. -/
theorem contains_only_allowed_chars_spec (text allowed : List Char) :
    (contains_only_allowed_chars text allowed = true ↔
        ∀ c ∈ text, c ∈ allowed) ∧
      contains_only_allowed_chars [] allowed = true := by
  constructor
  · simp [contains_only_allowed_chars]
  · rfl

/-- C7: every public function of the module is total on well-typed
inputs: `clamp` always returns a value, and each validator always returns
one of the two booleans; the embeddings contain no error branch. -/
theorem validation_utils_total :
    (∀ v lo hi : Int, ∃ r : Int, clamp v lo hi = r) ∧
      (∀ (pw : List Char) (ml : Nat) (rn ru : Bool),
        is_valid_password pw ml rn ru = true ∨
          is_valid_password pw ml rn ru = false) ∧
      (∀ s : List Char,
        is_valid_hex_color s = true ∨ is_valid_hex_color s = false) ∧
      (∀ (v lo hi : Int) (inc : Bool),
        is_in_range v lo hi inc = true ∨ is_in_range v lo hi inc = false) ∧
      (∀ (t : List Char) (mn : Int) (mx : Option Int),
        validate_length t mn mx = true ∨ validate_length t mn mx = false) ∧
      (∀ t a : List Char,
        contains_only_allowed_chars t a = true ∨
          contains_only_allowed_chars t a = false) := by
  refine ⟨fun v lo hi => ⟨_, rfl⟩, ?_, ?_, ?_, ?_, ?_⟩ <;>
    intros <;> exact Bool.eq_false_or_eq_true _

/-- C8: every public function is deterministic and side-effect-free: two
invocations on equal arguments return equal results, and the result
depends on nothing but the arguments. -/
theorem validation_utils_deterministic :
    (∀ v₁ v₂ lo₁ lo₂ hi₁ hi₂ : Int, v₁ = v₂ → lo₁ = lo₂ → hi₁ = hi₂ →
        clamp v₁ lo₁ hi₁ = clamp v₂ lo₂ hi₂) ∧
      (∀ (p₁ p₂ : List Char) (m₁ m₂ : Nat) (n₁ n₂ u₁ u₂ : Bool),
        p₁ = p₂ → m₁ = m₂ → n₁ = n₂ → u₁ = u₂ →
          is_valid_password p₁ m₁ n₁ u₁ = is_valid_password p₂ m₂ n₂ u₂) ∧
      (∀ s₁ s₂ : List Char, s₁ = s₂ →
        is_valid_hex_color s₁ = is_valid_hex_color s₂) ∧
      (∀ (v₁ v₂ lo₁ lo₂ hi₁ hi₂ : Int) (i₁ i₂ : Bool),
        v₁ = v₂ → lo₁ = lo₂ → hi₁ = hi₂ → i₁ = i₂ →
          is_in_range v₁ lo₁ hi₁ i₁ = is_in_range v₂ lo₂ hi₂ i₂) ∧
      (∀ (t₁ t₂ : List Char) (n₁ n₂ : Int) (x₁ x₂ : Option Int),
        t₁ = t₂ → n₁ = n₂ → x₁ = x₂ →
          validate_length t₁ n₁ x₁ = validate_length t₂ n₂ x₂) ∧
      (∀ t₁ t₂ a₁ a₂ : List Char, t₁ = t₂ → a₁ = a₂ →
        contains_only_allowed_chars t₁ a₁ = contains_only_allowed_chars t₂ a₂) := by
  refine ⟨?_, ?_, ?_, ?_, ?_, ?_⟩ <;> intros <;> subst_vars <;> rfl

/-- Witness for C8: two runs of `clamp` on equal concrete arguments agree. -/
theorem validation_utils_deterministic_witness :
    clamp (3 : Int) 0 5 = clamp 3 0 5 :=
  validation_utils_deterministic.1 3 3 0 0 5 5 rfl rfl rfl

/-- Characterisation of `takeHex`: it returns `some r` exactly when the
input splits as `n` hex digits followed by `r`. -/
theorem takeHex_eq_some (n : Nat) (l r : List Char) :
    takeHex n l = some r ↔
      ∃ p, l = p ++ r ∧ p.length = n ∧ p.all isHexDigitChar = true := by
  induction n generalizing l with
  | zero =>
      simp only [takeHex, Option.some_inj]
      constructor
      · rintro rfl
        exact ⟨[], rfl, rfl, rfl⟩
      · rintro ⟨p, rfl, hlen, -⟩
        rw [List.length_eq_zero] at hlen
        subst hlen
        rfl
  | succ n ih =>
      cases l with
      | nil =>
          simp only [takeHex]
          constructor
          · intro h; exact Option.noConfusion h
          · rintro ⟨p, hp, hlen, -⟩
            cases p with
            | nil => simp at hlen
            | cons d q => exact List.noConfusion hp
      | cons c t =>
          by_cases hc : isHexDigitChar c = true
          · simp only [takeHex, if_pos hc, ih]
            constructor
            · rintro ⟨p, rfl, hlen, hall⟩
              exact ⟨c :: p, rfl, by simp [hlen], by simp [hc, hall]⟩
            · rintro ⟨p, hp, hlen, hall⟩
              cases p with
              | nil => simp at hlen
              | cons d q =>
                  rw [List.cons_append] at hp
                  obtain ⟨rfl, rfl⟩ := List.cons.inj hp
                  refine ⟨q, rfl, by simpa using hlen, ?_⟩
                  simp only [List.all_cons, Bool.and_eq_true] at hall
                  exact hall.2
          · simp only [takeHex, if_neg hc]
            constructor
            · intro h; exact Option.noConfusion h
            · rintro ⟨p, hp, hlen, hall⟩
              cases p with
              | nil => simp at hlen
              | cons d q =>
                  rw [List.cons_append] at hp
                  obtain ⟨rfl, -⟩ := List.cons.inj hp
                  simp only [List.all_cons, Bool.and_eq_true] at hall
                  exact (hc hall.1).elim

/-- Characterisation of the `$` anchor: it accepts exactly the empty
suffix and the one-newline suffix. -/
theorem dollarEnd_iff (r : List Char) : dollarEnd r = true ↔ r = [] ∨ r = ['\n'] := by
  match r with
  | [] => simp [dollarEnd]
  | [c] => simp [dollarEnd]
  | _ :: _ :: _ => simp [dollarEnd]

/-- Characterisation of `hexRepMatch`: the tail after `#` matches `n`
repetition blocks followed by `$` exactly when it consists of `3 * n` hex
digits, possibly followed by one newline. -/
theorem hexRepMatch_iff (n : Nat) (l : List Char) :
    hexRepMatch n l = true ↔
      ∃ p, (l = p ∨ l = p ++ ['\n']) ∧ p.length = 3 * n ∧
        p.all isHexDigitChar = true := by
  unfold hexRepMatch
  split
  next r htk =>
    rw [dollarEnd_iff]
    obtain ⟨p, rfl, hlen, hall⟩ := (takeHex_eq_some _ _ _).mp htk
    constructor
    · rintro (rfl | rfl)
      · exact ⟨p, Or.inl (by simp), hlen, hall⟩
      · exact ⟨p, Or.inr rfl, hlen, hall⟩
    · rintro ⟨q, (hq | hq), hqlen, hqall⟩
      · have h2 := List.append_inj (hq.trans (List.append_nil q).symm)
          (by omega : p.length = q.length)
        exact Or.inl h2.2
      · have h2 := List.append_inj hq (by omega : p.length = q.length)
        exact Or.inr h2.2
  next htk =>
    simp only [Bool.false_eq_true, false_iff]
    rintro ⟨q, (hq | hq), hqlen, hqall⟩
    · rw [hq, (takeHex_eq_some _ _ _).mpr ⟨q, (List.append_nil q).symm, hqlen, hqall⟩] at htk
      exact Option.noConfusion htk
    · rw [hq, (takeHex_eq_some _ _ _).mpr ⟨q, rfl, hqlen, hqall⟩] at htk
      exact Option.noConfusion htk

/-- The disjunction of the two repetition counts tried by `{1,2}`,
characterised on the tail after `#`: 3 or 6 hex digits, or the same
followed by one trailing newline. -/
theorem hexTail_amended (rest : List Char) :
    (hexRepMatch 2 rest = true ∨ hexRepMatch 1 rest = true) ↔
      ((rest.length = 3 ∨ rest.length = 6) ∧ rest.all isHexDigitChar = true) ∨
        (rest.getLast? = some '\n' ∧
          (rest.dropLast.length = 3 ∨ rest.dropLast.length = 6) ∧
          rest.dropLast.all isHexDigitChar = true) := by
  simp only [hexRepMatch_iff]
  constructor
  · rintro (⟨p, (rfl | rfl), hlen, hall⟩ | ⟨p, (rfl | rfl), hlen, hall⟩)
    · exact Or.inl ⟨Or.inr (by omega), hall⟩
    · refine Or.inr ⟨List.getLast?_concat p, ?_, ?_⟩
      · rw [List.dropLast_concat]; exact Or.inr (by omega)
      · rw [List.dropLast_concat]; exact hall
    · exact Or.inl ⟨Or.inl (by omega), hall⟩
    · refine Or.inr ⟨List.getLast?_concat p, ?_, ?_⟩
      · rw [List.dropLast_concat]; exact Or.inl (by omega)
      · rw [List.dropLast_concat]; exact hall
  · rintro (⟨(h3 | h6), hall⟩ | ⟨hg, (h3 | h6), hall⟩)
    · exact Or.inr ⟨rest, Or.inl rfl, by omega, hall⟩
    · exact Or.inl ⟨rest, Or.inl rfl, by omega, hall⟩
    · have hne : rest ≠ [] := by
        intro h; rw [h] at hg; exact Option.noConfusion hg
      have hsplit : rest.dropLast ++ ['\n'] = rest := by
        have hdg := List.dropLast_append_getLast hne
        have hlast : rest.getLast hne = '\n' := by
          have h2 := List.getLast?_eq_getLast rest hne
          rw [hg] at h2
          exact (Option.some_inj.mp h2).symm
        rw [hlast] at hdg
        exact hdg
      exact Or.inr ⟨rest.dropLast, Or.inr hsplit.symm, by omega, hall⟩
    · have hne : rest ≠ [] := by
        intro h; rw [h] at hg; exact Option.noConfusion hg
      have hsplit : rest.dropLast ++ ['\n'] = rest := by
        have hdg := List.dropLast_append_getLast hne
        have hlast : rest.getLast hne = '\n' := by
          have h2 := List.getLast?_eq_getLast rest hne
          rw [hg] at h2
          exact (Option.some_inj.mp h2).symm
        rw [hlast] at hdg
        exact hdg
      exact Or.inl ⟨rest.dropLast, Or.inr hsplit.symm, by omega, hall⟩

/-- Unfolding of the spec-side hex-color predicate on a non-empty
string. -/
theorem spec_hex_color_cons (c : Char) (body : List Char) :
    spec_hex_color (c :: body) = true ↔
      c = '#' ∧ (body.length = 3 ∨ body.length = 6) ∧
        body.all isHexDigitChar = true := by
  simp [spec_hex_color, and_assoc]

/-- C1 (amended): `is_valid_hex_color(color)` returns true iff the string
is exactly `#` followed by 3 or 6 hex digits, or exactly that followed by
a single trailing newline (Python's `$` anchor also matches just before
one string-final newline). -/
theorem is_valid_hex_color_amended (s : List Char) :
    is_valid_hex_color s = spec_hex_color_nl s := by
  cases s with
  | nil => rfl
  | cons c rest =>
      cases rest with
      | nil =>
          simp [is_valid_hex_color, spec_hex_color_nl, spec_hex_color,
            hexRepMatch, takeHex]
      | cons b t =>
          rw [Bool.eq_iff_iff]
          simp only [is_valid_hex_color, spec_hex_color_nl, Bool.and_eq_true,
            Bool.or_eq_true, beq_iff_eq, List.getLast?_cons_cons,
            List.dropLast_cons₂, spec_hex_color_cons, hexTail_amended]
          tauto

/-- C1 counterexample: on the input `"#fff\n"` (valid digits plus a
trailing newline) the code returns true, while the claim as stated
requires false, since the claimed predicate (exactly `#` followed by 3 or
6 hex digits and nothing else) does not hold there. -/
theorem is_valid_hex_color_counterexample :
    is_valid_hex_color ['#', 'f', 'f', 'f', '\n'] = true ∧
      spec_hex_color ['#', 'f', 'f', 'f', '\n'] = false := by
  decide
